import Mathlib

/-!
Verification of the durable index engine and append-only value store of
`src/server.cpp` (a single-node key/value server).

The embedding models:
* `PersistentHashTable<std::string, uint64_t>` (lines 61-185): in-memory map
  `db` (an `unordered_map`, modelled as an association list with unique keys
  and a fixed iteration order), the `pendingLog` vector, the `dropping` flag,
  and the two durable files (`logs.txt` and `db.txt`).  The textual
  `FileWriteReadStrategy` (lines 46-59) writes `key ' ' value ' '` tokens; we
  model each file by the sequence of (key, value) pairs it holds, which is
  exact whenever keys are nonempty and contain no whitespace (the predicate
  `validKey` below); the count prefix written before the pairs is implicit in
  the list length.
* `BinaryPersistentHashTable` (lines 187-221): the value file opened with
  `fopen(path, "ab+")`, modelled as a byte list plus the stream position
  indicator.  On the target platform (glibc/Linux) the position indicator of a
  stream opened in `"ab+"` mode is 0 right after `fopen`, while writes always
  go to the end of file (`O_APPEND`); after a write or an `fseek` to the end
  the indicator equals the file length.
* the request handlers `handle_get` / `handle_put` (lines 395-439), with
  protobuf decoding abstracted to an `Option`-typed input (`none` = decode
  failure), since the generated protobuf code is outside the repository.

`dropTable` (lines 134-150) sets `dropping` under the lock, serializes `db`
with no lock held, and clears `dropping` under the lock; we split it into the
three atomic steps `snapBegin`, `snapWrite`, `snapEnd` so that foreground
operations can interleave with an in-flight snapshot, and `dropTable` itself
is their composition.
-/

namespace LocalStorage

/-- A (key, offset) pair as stored by the index engine
(`std::pair<std::string, uint64_t>`). -/
abbrev Entry := String × Nat

/-- Lookup in the association list modelling `std::unordered_map`:
first entry with the matching key (keys are unique in `db`). -/
def mapFind? : List Entry → String → Option Nat
  | [], _ => none
  | e :: rest, k => if e.1 == k then some e.2 else mapFind? rest k

/-- `db[key] = value` on the association list modelling `std::unordered_map`:
replace the entry in place if the key is present, else append. -/
def mapInsert : List Entry → String → Nat → List Entry
  | [], k, v => [(k, v)]
  | e :: rest, k, v => if e.1 == k then (k, v) :: rest else e :: mapInsert rest k v

/-- `for (auto& entry : es) db[entry.first] = entry.second;` — merge a pair
sequence into the map in order, later entries overwriting earlier ones. -/
def mergeAll (db : List Entry) (es : List Entry) : List Entry :=
  es.foldl (fun d e => mapInsert d e.1 e.2) db

/-- The loop of `PersistentHashTable::get` (lines 119-125): scan `pendingLog`
from the most recently appended entry down to the oldest, returning the first
match.  The recursion prefers a match in `rest` (later vector indices) over
the head, which is exactly the backward scan. -/
def pendingLookup : List Entry → String → Option Nat
  | [], _ => none
  | e :: rest, k =>
      match pendingLookup rest k with
      | some v => some v
      | none => if e.1 == k then some e.2 else none

/-- State of `PersistentHashTable<std::string, uint64_t>` together with the
decoded contents of its two files (`logsPath` = `logs.txt`,
`dbPath` = `db.txt`). -/
structure PHT where
  pendingLog : List Entry
  db : List Entry
  dropping : Bool
  logFile : List Entry
  dbFile : List Entry
deriving DecidableEq

/-- `PersistentHashTable::put` (lines 109-115): append to `pendingLog`;
if no snapshot is in flight, also set `db[key] = value`. -/
def PHT.put (s : PHT) (key : String) (value : Nat) : PHT :=
  { s with
    pendingLog := s.pendingLog ++ [(key, value)]
    db := if s.dropping then s.db else mapInsert s.db key value }

/-- `PersistentHashTable::get` (lines 117-132): newest-first scan of
`pendingLog`, falling back to `db`; `NULL` becomes `none`. -/
def PHT.get (s : PHT) (key : String) : Option Nat :=
  match pendingLookup s.pendingLog key with
  | some v => some v
  | none => mapFind? s.db key

/-- `PersistentHashTable::dropLogs` (lines 152-167): truncate-and-rewrite the
log file with the current `pendingLog`; if no snapshot is in flight, merge
every pending entry into `db` in log order and clear `pendingLog`. -/
def PHT.dropLogs (s : PHT) : PHT :=
  if s.dropping then
    { s with logFile := s.pendingLog }
  else
    { s with
      logFile := s.pendingLog
      db := mergeAll s.db s.pendingLog
      pendingLog := [] }

/-- First step of `PersistentHashTable::dropTable` (lines 135-138): set
`dropping` under the lock. -/
def PHT.snapBegin (s : PHT) : PHT := { s with dropping := true }

/-- Middle of `PersistentHashTable::dropTable` (lines 139-145):
truncate-and-rewrite the snapshot file with the entries of `db`. -/
def PHT.snapWrite (s : PHT) : PHT := { s with dbFile := s.db }

/-- Last step of `PersistentHashTable::dropTable` (lines 146-149): clear
`dropping` under the lock. -/
def PHT.snapEnd (s : PHT) : PHT := { s with dropping := false }

/-- `PersistentHashTable::dropTable` run to completion with no interleaving. -/
def PHT.dropTable (s : PHT) : PHT := s.snapBegin.snapWrite.snapEnd

/-- The constructor (lines 64-107): load the snapshot file into `db` first,
then replay the log file in file order, map insertion overwriting on key
collision.  An absent file contributes no entries.  The files themselves are
not modified. -/
def PHT.recover (dbFile logFile : List Entry) : PHT :=
  { pendingLog := []
    db := mergeAll (mergeAll [] dbFile) logFile
    dropping := false
    logFile := logFile
    dbFile := dbFile }

/-- A fresh start with no `db.txt` and no `logs.txt` on disk. -/
def PHT.init : PHT := PHT.recover [] []

/-- The destructor (lines 169-173): signal cancellation, join the snapshot
thread (neither affects the modelled state), then call `dropLogs` once more
unconditionally. -/
def PHT.shutdown (s : PHT) : PHT := s.dropLogs

/-- A graceful restart: run the destructor, then construct a new table from
the files it left behind. -/
def PHT.restart (s : PHT) : PHT :=
  PHT.recover (PHT.shutdown s).dbFile (PHT.shutdown s).logFile

/-- The operations other than `put`/`get` that can run between foreground
operations: a log flush, or one of the three atomic pieces of a (possibly
in-flight) snapshot. -/
inductive BgOp
  | dropLogs
  | snapBegin
  | snapWrite
  | snapEnd
deriving DecidableEq

/-- Apply one background operation. -/
def PHT.applyBg (s : PHT) : BgOp → PHT
  | .dropLogs => s.dropLogs
  | .snapBegin => s.snapBegin
  | .snapWrite => s.snapWrite
  | .snapEnd => s.snapEnd

/-- Apply a sequence of background operations in order. -/
def PHT.runBg (s : PHT) (ops : List BgOp) : PHT := ops.foldl PHT.applyBg s

/-- Apply a sequence of `put` calls in order. -/
def PHT.putAll (s : PHT) (es : List Entry) : PHT :=
  es.foldl (fun t e => t.put e.1 e.2) s

/-- Keys for which the textual `FileWriteReadStrategy` (lines 46-59) is
injective: `operator>>` tokenizes on whitespace, so a key survives the
write/read round trip exactly when it is nonempty and whitespace-free.
Under this condition the pair-sequence view of the two files is exact. -/
def validKey (k : String) : Prop :=
  k ≠ "" ∧ ∀ c ∈ k.data, c.isWhitespace = false

/-! ### Association list and lookup lemmas -/

theorem mapFind?_mapInsert (d : List Entry) (k k2 : String) (v : Nat) :
    mapFind? (mapInsert d k v) k2 = if k = k2 then some v else mapFind? d k2 := by
  induction d with
  | nil => simp [mapInsert, mapFind?, beq_iff_eq]
  | cons e rest ih =>
    simp only [mapInsert, mapFind?, beq_iff_eq]
    by_cases h1 : e.1 = k
    · simp only [h1, if_true]
      by_cases h2 : k = k2
      · simp [mapFind?, beq_iff_eq, h2]
      · simp [mapFind?, beq_iff_eq, h1, h2]
    · simp only [h1, if_false, mapFind?, beq_iff_eq]
      by_cases h3 : e.1 = k2
      · have hk : ¬(k = k2) := fun h => h1 (h3.trans h.symm)
        simp [h3, hk]
      · simp [h3, ih]

theorem pendingLookup_append (l1 l2 : List Entry) (k : String) :
    pendingLookup (l1 ++ l2) k =
      match pendingLookup l2 k with
      | some v => some v
      | none => pendingLookup l1 k := by
  induction l1 with
  | nil =>
    cases h : pendingLookup l2 k <;> simp [pendingLookup, h]
  | cons e rest ih =>
    simp only [List.cons_append, pendingLookup, List.append_eq]
    rw [ih]
    cases h : pendingLookup l2 k with
    | some v => simp
    | none => cases h2 : pendingLookup rest k <;> simp

theorem pendingLookup_snoc (l : List Entry) (k : String) (v : Nat) :
    pendingLookup (l ++ [(k, v)]) k = some v := by
  rw [pendingLookup_append]
  simp [pendingLookup]

theorem mapFind?_mergeAll (l : List Entry) (d : List Entry) (k : String) :
    mapFind? (mergeAll d l) k =
      match pendingLookup l k with
      | some v => some v
      | none => mapFind? d k := by
  induction l generalizing d with
  | nil => simp [mergeAll, pendingLookup]
  | cons e rest ih =>
    show mapFind? (mergeAll (mapInsert d e.1 e.2) rest) k = _
    rw [ih]
    simp only [pendingLookup]
    cases h : pendingLookup rest k with
    | some v => simp
    | none =>
      simp only [mapFind?_mapInsert]
      by_cases h2 : e.1 = k
      · simp [h2, beq_iff_eq]
      · simp [h2, beq_iff_eq]

/-- The logical view that `get` must report after the most recent write of
`v` under key `k`: the newest pending entry for `k` is `v`, or there is no
pending entry for `k` and `db` holds `v`. -/
def seesLatest (s : PHT) (k : String) (v : Nat) : Prop :=
  pendingLookup s.pendingLog k = some v ∨
    (pendingLookup s.pendingLog k = none ∧ mapFind? s.db k = some v)

theorem get_of_seesLatest {s : PHT} {k : String} {v : Nat}
    (h : seesLatest s k v) : s.get k = some v := by
  rcases h with h | ⟨h1, h2⟩
  · simp [PHT.get, h]
  · simp [PHT.get, h1, h2]

theorem seesLatest_put (s : PHT) (k : String) (v : Nat) :
    seesLatest (s.put k v) k v := by
  left
  simp [PHT.put, pendingLookup_snoc]

theorem seesLatest_applyBg {s : PHT} {k : String} {v : Nat}
    (h : seesLatest s k v) (op : BgOp) : seesLatest (s.applyBg op) k v := by
  cases op with
  | dropLogs =>
    cases hd : s.dropping with
    | true => simpa [PHT.applyBg, PHT.dropLogs, hd, seesLatest] using h
    | false =>
      right
      constructor
      · simp [PHT.applyBg, PHT.dropLogs, hd, pendingLookup]
      · simp only [PHT.applyBg, PHT.dropLogs, hd, Bool.false_eq_true, if_false,
          mapFind?_mergeAll]
        rcases h with h | ⟨h1, h2⟩
        · simp [h]
        · simp [h1, h2]
  | snapBegin => simpa [PHT.applyBg, PHT.snapBegin, seesLatest] using h
  | snapWrite => simpa [PHT.applyBg, PHT.snapWrite, seesLatest] using h
  | snapEnd => simpa [PHT.applyBg, PHT.snapEnd, seesLatest] using h

theorem seesLatest_runBg {s : PHT} {k : String} {v : Nat}
    (h : seesLatest s k v) (ops : List BgOp) : seesLatest (s.runBg ops) k v := by
  induction ops generalizing s with
  | nil => exact h
  | cons op rest ih => exact ih (seesLatest_applyBg h op)

theorem keys_mapInsert (d : List Entry) (k : String) (v : Nat) :
    (mapInsert d k v).map Prod.fst =
      if k ∈ d.map Prod.fst then d.map Prod.fst else d.map Prod.fst ++ [k] := by
  induction d with
  | nil => simp [mapInsert]
  | cons e rest ih =>
    simp only [mapInsert, beq_iff_eq]
    by_cases h1 : e.1 = k
    · simp [h1]
    · have h2 : (k ∈ e.1 :: rest.map Prod.fst) ↔ k ∈ rest.map Prod.fst := by
        constructor
        · intro h
          rcases List.mem_cons.mp h with h | h
          · exact absurd h.symm h1
          · exact h
        · exact fun h => List.mem_cons_of_mem _ h
      by_cases h3 : k ∈ rest.map Prod.fst
      · simp [h1, ih, h3, h2]
      · simp [h1, ih, h3, h2]

theorem nodupKeys_mapInsert {d : List Entry} (k : String) (v : Nat)
    (h : (d.map Prod.fst).Nodup) : ((mapInsert d k v).map Prod.fst).Nodup := by
  rw [keys_mapInsert]
  by_cases h1 : k ∈ d.map Prod.fst
  · simpa [h1] using h
  · simp only [h1, if_false]
    simp [List.nodup_append, h, h1]

theorem nodupKeys_mergeAll (l : List Entry) {d : List Entry}
    (h : (d.map Prod.fst).Nodup) : ((mergeAll d l).map Prod.fst).Nodup := by
  induction l generalizing d with
  | nil => exact h
  | cons e rest ih => exact ih (nodupKeys_mapInsert e.1 e.2 h)

theorem pendingLookup_eq_none_of_not_mem {l : List Entry} {k : String}
    (h : k ∉ l.map Prod.fst) : pendingLookup l k = none := by
  induction l with
  | nil => rfl
  | cons e rest ih =>
    have h1 : e.1 ≠ k := fun he => h (by simp [he.symm])
    have h2 : k ∉ rest.map Prod.fst := fun hm => h (by simp [hm])
    simp [pendingLookup, ih h2, h1]

theorem mapFind?_eq_none_of_not_mem {l : List Entry} {k : String}
    (h : k ∉ l.map Prod.fst) : mapFind? l k = none := by
  induction l with
  | nil => rfl
  | cons e rest ih =>
    have h1 : e.1 ≠ k := fun he => h (by simp [he.symm])
    have h2 : k ∉ rest.map Prod.fst := fun hm => h (by simp [hm])
    simp [mapFind?, ih h2, h1]

theorem pendingLookup_eq_mapFind?_of_nodup {m : List Entry} {k : String}
    (h : (m.map Prod.fst).Nodup) : pendingLookup m k = mapFind? m k := by
  induction m with
  | nil => rfl
  | cons e rest ih =>
    have hrest : (rest.map Prod.fst).Nodup := (List.nodup_cons.mp h).2
    have hnot : e.1 ∉ rest.map Prod.fst := (List.nodup_cons.mp h).1
    simp only [pendingLookup, mapFind?, ih hrest]
    by_cases h1 : e.1 = k
    · rw [mapFind?_eq_none_of_not_mem (h1 ▸ hnot)]
    · cases h2 : mapFind? rest k <;> simp [h1, h2]

theorem putAll_of_not_dropping (l : List Entry) (s : PHT) (h : s.dropping = false) :
    s.putAll l = { s with pendingLog := s.pendingLog ++ l, db := mergeAll s.db l } := by
  induction l generalizing s with
  | nil => simp [PHT.putAll, mergeAll]
  | cons e rest ih =>
    show PHT.putAll (s.put e.1 e.2) rest = _
    rw [ih (s.put e.1 e.2) (by simp [PHT.put, h])]
    simp [PHT.put, h, mergeAll]

theorem dropTable_eq (s : PHT) :
    s.dropTable = { s with dbFile := s.db, dropping := false } := rfl

/-! ### The append-only value store (`BinaryPersistentHashTable`) -/

/-- Little-endian byte sequence of a `uint64_t`-style machine word, `w` bytes
wide: the in-memory representation written by
`fwrite(&sz, sizeof(uint64_t), 1, f)` on the little-endian target. -/
def bytesLE : Nat → Nat → List Nat
  | 0, _ => []
  | w + 1, n => n % 256 :: bytesLE w (n / 256)

/-- The machine word a byte sequence denotes when read back by
`fread(&sz, sizeof(uint64_t), 1, f)`. -/
def leVal (bs : List Nat) : Nat := bs.foldr (fun b acc => b + 256 * acc) 0

/-- Read the 8-byte length field stored at byte position `pos` of the file. -/
def readLE8 (file : List Nat) (pos : Nat) : Nat := leVal ((file.drop pos).take 8)

theorem bytesLE_length (w n : Nat) : (bytesLE w n).length = w := by
  induction w generalizing n with
  | zero => rfl
  | succ w ih => simp [bytesLE, ih]

theorem leVal_bytesLE (w n : Nat) : leVal (bytesLE w n) = n % 256 ^ w := by
  induction w generalizing n with
  | zero => simp [bytesLE, leVal, Nat.mod_one]
  | succ w ih =>
    show n % 256 + 256 * leVal (bytesLE w (n / 256)) = n % 256 ^ (w + 1)
    rw [ih, pow_succ, Nat.mul_comm (256 ^ w) 256, Nat.mod_mul]

/-- State of `BinaryPersistentHashTable` (lines 187-221): the index engine it
wraps, the bytes of the value file (`values.bin`), and the stream position
indicator of `f`.  Writes always target the end of the file (the stream is in
append mode), while `ftell`/`fseek` observe and move the indicator. -/
structure BinPHT where
  table : PHT
  file : List Nat
  pos : Nat
deriving DecidableEq

/-- The constructor (lines 189-194): `fopen(path, "ab+")`.  On the target
platform (glibc/Linux) this leaves the position indicator at the beginning of
the file; it moves to the end only after a write or an explicit seek. -/
def BinPHT.fopenAppend (file : List Nat) (t : PHT) : BinPHT :=
  { table := t, file := file, pos := 0 }

/-- `BinaryPersistentHashTable::put` (lines 210-216): `offset = ftell(f)`
reads the current position indicator; the 8-byte length field and the raw
payload are appended at the end of the file, leaving the indicator at the new
end; finally `table.put(key, offset)` records the offset. -/
def BinPHT.put (s : BinPHT) (key : String) (value : List Nat) : BinPHT :=
  { table := s.table.put key s.pos
    file := s.file ++ (bytesLE 8 value.length ++ value)
    pos := (s.file ++ (bytesLE 8 value.length ++ value)).length }

/-- `BinaryPersistentHashTable::get` (lines 196-208): look the key up in the
index engine; on `NULL` return the empty string; otherwise seek to the
offset, read the 8-byte length field, read that many payload bytes, and seek
back to end-of-file.  Returns the bytes and the successor state (only the
position indicator changes). -/
def BinPHT.get (s : BinPHT) (key : String) : List Nat × BinPHT :=
  match s.table.get key with
  | none => ([], s)
  | some offset =>
      ((s.file.drop (offset + 8)).take (readLE8 s.file offset),
        { s with pos := s.file.length })

/-- Whenever the position indicator sits at end-of-file when `put` runs (true
in every state except right after reopening a nonempty file, and restored by
every `put` and every successful `get`), the recorded offset is exact and the
stored bytes read back unchanged. -/
theorem get_put_roundTrip (s : BinPHT) (k : String) (v : List Nat)
    (hpos : s.pos = s.file.length) (hlen : v.length < 2 ^ 64) :
    ((BinPHT.put s k v).get k).1 = v := by
  have htab : (s.table.put k s.pos).get k = some s.pos :=
    get_of_seesLatest (seesLatest_put s.table k s.pos)
  have hsz : readLE8 (s.file ++ (bytesLE 8 v.length ++ v)) s.pos = v.length := by
    rw [readLE8, hpos, List.drop_left,
      List.take_left' (bytesLE_length 8 v.length), leVal_bytesLE]
    exact Nat.mod_eq_of_lt (by simpa [show (256 : Nat) ^ 8 = 2 ^ 64 by norm_num] using hlen)
  have hbytes :
      ((s.file ++ (bytesLE 8 v.length ++ v)).drop (s.pos + 8)).take v.length = v := by
    rw [hpos, ← List.append_assoc]
    have hl : (s.file ++ bytesLE 8 v.length).length = s.file.length + 8 := by
      simp [bytesLE_length]
    rw [List.drop_left' hl, List.take_length]
  simp only [BinPHT.get, BinPHT.put, htab, hsz, hbytes]

/-! ### Request handlers (`handle_get` / `handle_put`, lines 395-439)

Protobuf encode/decode is external to the repository, so a handler's input is
the already-decoded request: `none` stands for a payload on which
`ParseFromArray` fails. -/

/-- `NProto::TGetRequest` as used by `handle_get`: request id and key. -/
structure TGetRequest where
  request_id : Nat
  key : String
deriving DecidableEq

/-- `NProto::TGetResponse`: the field (named `offset` in the schema) carries
the value bytes; `none` means the field is left unset in the response. -/
structure TGetResponse where
  request_id : Nat
  offset : Option (List Nat)
deriving DecidableEq

/-- `NProto::TPutRequest`: the field named `offset` carries the value bytes
to store. -/
structure TPutRequest where
  request_id : Nat
  key : String
  offset : List Nat
deriving DecidableEq

/-- `NProto::TPutResponse`: only the echoed request id. -/
structure TPutResponse where
  request_id : Nat
deriving DecidableEq

/-- Outcome of a handler: a response plus the successor store state, or
`abort()` of the whole server process (lines 400 and 424). -/
inductive HandlerResult (α : Type) where
  | response (resp : α) (s : BinPHT)
  | processAbort
deriving DecidableEq

/-- `handle_get` (lines 395-417): on decode failure the code calls `abort()`;
otherwise it reads the value and sets the response field only when the value
string is nonempty. -/
def handleGet (s : BinPHT) (decoded : Option TGetRequest) :
    HandlerResult TGetResponse :=
  match decoded with
  | none => .processAbort
  | some req =>
      .response
        { request_id := req.request_id
          offset := if (s.get req.key).1 ≠ [] then some (s.get req.key).1 else none }
        (s.get req.key).2

/-- `handle_put` (lines 419-439): on decode failure the code calls `abort()`;
otherwise it stores the value bytes and echoes the request id. -/
def handlePut (s : BinPHT) (decoded : Option TPutRequest) :
    HandlerResult TPutResponse :=
  match decoded with
  | none => .processAbort
  | some req => .response { request_id := req.request_id } (s.put req.key req.offset)

/-- Projection of the `offset` field of a GET response, `none` when the
handler aborted. -/
def getRespValue (r : HandlerResult TGetResponse) : Option (Option (List Nat)) :=
  match r with
  | .response resp _ => some resp.offset
  | .processAbort => none

/-! ### Claims -/

/-- C1: last-write-wins.  For every starting state, key `K` and offsets
`V1`, `V2`, running `put(K, V1)`, then any sequence of `dropLogs` calls and
snapshot steps, then `put(K, V2)`, then again any such sequence, and finally
`get(K)`, returns `V2`. -/
theorem lastWriteWins (s : PHT) (K : String) (V1 V2 : Nat)
    (ops1 ops2 : List BgOp) :
    (((((s.put K V1).runBg ops1).put K V2).runBg ops2).get K) = some V2 :=
  get_of_seesLatest
    (seesLatest_runBg (seesLatest_put ((s.put K V1).runBg ops1) K V2) ops2)

/-- C3: invariant I2.  Whenever `dropping` is true, `put` appends to
`pendingLog` and leaves `db` untouched, and `dropLogs` rewrites the log file
with the pending entries but leaves `db` and `pendingLog` unmodified: nothing
is merged into the map being serialized while the flag is set. -/
theorem snapshotInFlightNoMerge (s : PHT) (k : String) (v : Nat)
    (h : s.dropping = true) :
    (s.put k v).db = s.db ∧
    (s.put k v).pendingLog = s.pendingLog ++ [(k, v)] ∧
    s.dropLogs.db = s.db ∧
    s.dropLogs.pendingLog = s.pendingLog ∧
    s.dropLogs.logFile = s.pendingLog := by
  refine ⟨?_, rfl, ?_, ?_, ?_⟩ <;> simp [PHT.put, PHT.dropLogs, h]

/-- Witness for C3 at the concrete state reached by starting a snapshot on a
fresh table. -/
theorem snapshotInFlightNoMerge_witness :
    (PHT.init.snapBegin).dropping = true ∧
    ((PHT.init.snapBegin.put "k" 5).db = PHT.init.snapBegin.db ∧
      (PHT.init.snapBegin.put "k" 5).pendingLog =
        PHT.init.snapBegin.pendingLog ++ [("k", 5)] ∧
      PHT.init.snapBegin.dropLogs.db = PHT.init.snapBegin.db ∧
      PHT.init.snapBegin.dropLogs.pendingLog = PHT.init.snapBegin.pendingLog ∧
      PHT.init.snapBegin.dropLogs.logFile = PHT.init.snapBegin.pendingLog) :=
  ⟨rfl, snapshotInFlightNoMerge PHT.init.snapBegin "k" 5 rfl⟩

/-- C4: snapshot non-interference.  A `put(K, V)` issued while a snapshot is
in flight is immediately visible through `get(K)`, and after the in-flight
snapshot completes (its write and flag-clear steps) and a subsequent
`dropLogs` runs, `get(K)` still returns `V`. -/
theorem putDuringSnapshotNotLost (s : PHT) (K : String) (V : Nat)
    (h : s.dropping = true) :
    (s.put K V).get K = some V ∧
    ((((s.put K V).snapWrite).snapEnd).dropLogs).get K = some V := by
  constructor
  · exact get_of_seesLatest (seesLatest_put s K V)
  · exact get_of_seesLatest
      (seesLatest_applyBg
        (seesLatest_applyBg (seesLatest_applyBg (seesLatest_put s K V) .snapWrite)
          .snapEnd)
        .dropLogs)

/-- Witness for C4: a put against a fresh table whose snapshot has just
started. -/
theorem putDuringSnapshotNotLost_witness :
    (PHT.init.snapBegin).dropping = true ∧
    ((PHT.init.snapBegin.put "a" 3).get "a" = some 3 ∧
      ((((PHT.init.snapBegin.put "a" 3).snapWrite).snapEnd).dropLogs).get "a" =
        some 3) :=
  ⟨rfl, putDuringSnapshotNotLost PHT.init.snapBegin "a" 3 rfl⟩

instance decValidKey (k : String) : Decidable (validKey k) :=
  inferInstanceAs (Decidable (k ≠ "" ∧ ∀ c ∈ k.data, c.isWhitespace = false))

/-- C2: recovery round trip.  Starting fresh, write the entries of `kvs1`
(distinct, serializable keys), force a full snapshot, write the entries of
`kvs2` with no further snapshot, then simulate a restart of the process (the
destructor's final flush followed by the constructor's reload of the snapshot
file and replay of the log file in file order, log entries overwriting
snapshot entries).  Every key then maps to exactly the offset it mapped to
before the restart. -/
theorem recoveryRoundTrip (kvs1 kvs2 : List Entry)
    (hdistinct : ((kvs1 ++ kvs2).map Prod.fst).Nodup)
    (hkeys : ∀ p ∈ kvs1 ++ kvs2, validKey p.1) :
    ∀ k, ((((PHT.init.putAll kvs1).dropTable).putAll kvs2).restart).get k =
      (((PHT.init.putAll kvs1).dropTable).putAll kvs2).get k := by
  intro k
  have hs1 : PHT.init.putAll kvs1 = ⟨kvs1, mergeAll [] kvs1, false, [], []⟩ := by
    rw [putAll_of_not_dropping kvs1 PHT.init rfl]; rfl
  have hs3 : ((PHT.init.putAll kvs1).dropTable).putAll kvs2 =
      ⟨kvs1 ++ kvs2, mergeAll (mergeAll [] kvs1) kvs2, false, [],
        mergeAll [] kvs1⟩ := by
    rw [hs1, dropTable_eq, putAll_of_not_dropping kvs2 _ rfl]
  have hres : (((PHT.init.putAll kvs1).dropTable).putAll kvs2).restart =
      PHT.recover (mergeAll [] kvs1) (kvs1 ++ kvs2) := by
    rw [hs3]; rfl
  rw [hres, hs3]
  have hm : ((mergeAll ([] : List Entry) kvs1).map Prod.fst).Nodup :=
    nodupKeys_mergeAll kvs1 List.nodup_nil
  cases hc : pendingLookup (kvs1 ++ kvs2) k with
  | some v =>
      simp [PHT.get, PHT.recover, pendingLookup, mapFind?_mergeAll, hc]
  | none =>
      have hc2 : pendingLookup kvs2 k = none := by
        rw [pendingLookup_append] at hc
        cases h2 : pendingLookup kvs2 k with
        | some v => rw [h2] at hc; exact absurd hc (by simp)
        | none => rfl
      have hc1 : pendingLookup kvs1 k = none := by
        rw [pendingLookup_append, hc2] at hc
        exact hc
      simp only [PHT.get, PHT.recover, pendingLookup, mapFind?_mergeAll, hc, hc2,
        hc1, mapFind?]
      rw [pendingLookup_eq_mapFind?_of_nodup hm, mapFind?_mergeAll]
      simp [hc1, mapFind?]

/-- Witness for C2 with two keys before the snapshot and one after. -/
theorem recoveryRoundTrip_witness :
    ((([("a", 10), ("b", 11)] ++ [("c", 12)] : List Entry).map Prod.fst).Nodup) ∧
    (∀ p ∈ ([("a", 10), ("b", 11)] ++ [("c", 12)] : List Entry), validKey p.1) ∧
    ∀ k, ((((PHT.init.putAll [("a", 10), ("b", 11)]).dropTable).putAll
        [("c", 12)]).restart).get k =
      (((PHT.init.putAll [("a", 10), ("b", 11)]).dropTable).putAll
        [("c", 12)]).get k :=
  ⟨by decide, by decide,
    recoveryRoundTrip [("a", 10), ("b", 11)] [("c", 12)] (by decide) (by decide)⟩

/-- A reachable state with an empty pending log and a non-trivial log file:
one put followed by one flush from a fresh start. -/
def emptyFlushState : PHT := (PHT.init.put "x" 7).dropLogs

/-- C5 counterexample: flushing an empty pending log is not a no-op on the
externally observable durable state.  In the state reached by
`put("x", 7); dropLogs` the log file holds `("x", 7)`; a further `dropLogs`
with the pending log empty truncates the log file, and a recovery from the
resulting files (the constructor's reload-and-replay) no longer finds `"x"`,
while a recovery from the files as they were before the empty flush does. -/
theorem emptyFlushNotDurablyInvisible :
    emptyFlushState.pendingLog = [] ∧
    emptyFlushState.logFile = [("x", 7)] ∧
    emptyFlushState.dropLogs.logFile = [] ∧
    (PHT.recover emptyFlushState.dropLogs.dbFile
        emptyFlushState.dropLogs.logFile).get "x" ≠
      (PHT.recover emptyFlushState.dbFile emptyFlushState.logFile).get "x" := by
  refine ⟨rfl, rfl, rfl, ?_⟩
  decide

/-- C5 (amended): calling `dropLogs` with an empty pending log leaves every
in-memory observable unchanged — `db`, `pendingLog`, the `dropping` flag, the
snapshot file and every `get` result — raises no error, and a graceful
restart (destructor flush plus constructor reload) recovers exactly the same
state; but the log file itself is rewritten to the empty-log encoding, so the
durable log file (and hence what a crash recovery that skips the destructor
would reload) is not preserved. -/
theorem emptyFlushNoop (s : PHT) (h : s.pendingLog = []) :
    s.dropLogs = { s with logFile := [] } ∧
    (∀ k, s.dropLogs.get k = s.get k) ∧
    s.dropLogs.restart = s.restart := by
  obtain ⟨pl, db, dr, lf, bf⟩ := s
  simp only at h
  subst h
  cases dr with
  | false => exact ⟨rfl, fun k => rfl, rfl⟩
  | true => exact ⟨rfl, fun k => rfl, rfl⟩

/-- Witness for C5's amended statement at the concrete reachable state. -/
theorem emptyFlushNoop_witness :
    emptyFlushState.pendingLog = [] ∧
    (emptyFlushState.dropLogs = { emptyFlushState with logFile := [] } ∧
      (∀ k, emptyFlushState.dropLogs.get k = emptyFlushState.get k) ∧
      emptyFlushState.dropLogs.restart = emptyFlushState.restart) :=
  ⟨rfl, emptyFlushNoop emptyFlushState rfl⟩

/-- The run that falsifies invariant I3 on the code: a write is accepted,
flushed (and thereby merged into the in-memory map and cleared from the
pending log), then one more flush — as the reactor issues one per event-loop
iteration — truncates the log file while no snapshot has run. -/
def lostWriteRun : PHT := ((PHT.init.put "a" 0).dropLogs).dropLogs

/-- C8: graceful-shutdown durability fails on the code.  In `lostWriteRun`
the accepted pair `("a", 0)` is still served from memory, but after the
destructor's final flush (`shutdown`) it is recorded in neither the log file
nor the snapshot file, and a subsequent constructor reload returns absent for
`"a"`: the accepted write is silently lost across a graceful shutdown. -/
theorem gracefulShutdownLosesWrite :
    (PHT.init.put "a" 0).get "a" = some 0 ∧
    lostWriteRun.get "a" = some 0 ∧
    lostWriteRun.shutdown.logFile = [] ∧
    lostWriteRun.shutdown.dbFile = [] ∧
    (PHT.recover lostWriteRun.shutdown.dbFile
        lostWriteRun.shutdown.logFile).get "a" = none := by
  decide

/-- One pre-existing record in `values.bin`: an 8-byte length field holding 4,
then the payload bytes `"abcd"`. -/
def demoValueFile : List Nat := bytesLE 8 4 ++ [97, 98, 99, 100]

/-- C6: fails on the code for a non-empty value file reopened at startup.
The record is appended at the current end of the file (byte 12), but the
returned offset — `ftell` of a freshly `fopen(..., "ab+")`-ed stream, which
on the target platform is 0 — is not the byte offset at which the length
field begins, and a `get` of the key then returns the pre-existing record
instead of the new payload. -/
theorem putAfterReopenRecordsWrongOffset :
    (BinPHT.fopenAppend demoValueFile PHT.init).pos = 0 ∧
    demoValueFile.length = 12 ∧
    ((BinPHT.fopenAppend demoValueFile PHT.init).put "k" [120]).file =
      demoValueFile ++ (bytesLE 8 1 ++ [120]) ∧
    (((BinPHT.fopenAppend demoValueFile PHT.init).put "k" [120]).table).get "k" =
      some 0 ∧
    ((((BinPHT.fopenAppend demoValueFile PHT.init).put "k" [120])).get "k").1 =
      [97, 98, 99, 100] := by
  decide

/-- A different pre-existing value file: one 3-byte record. -/
def priorValueFile : List Nat := bytesLE 8 3 ++ [10, 11, 12]

/-- C7: the value round trip fails on the code in the state the constructor
leaves behind for a non-empty file: the first `put` after reopening records
the stale offset 0, and reading back at that offset yields the old record
`[10, 11, 12]`, not the payload `[5, 6]` just stored.  (In every state whose
position indicator is at end-of-file the round trip does hold — see
`get_put_roundTrip`.) -/
theorem valueRoundTripFailsAfterReopen :
    (((BinPHT.fopenAppend priorValueFile PHT.init).put "p" [5, 6]).get "p").1 =
      [10, 11, 12] ∧
    ¬ (((BinPHT.fopenAppend priorValueFile PHT.init).put "p" [5, 6]).get "p").1 =
      [5, 6] := by
  decide

/-- C9 counterexample: a malformed (undecodable) GET payload does not merely
close the offending connection — the handler calls `abort()`, killing the
whole process. -/
theorem malformedRequestAbortsProcess :
    handleGet (BinPHT.fopenAppend [] PHT.init) none =
      HandlerResult.processAbort := rfl

/-- C9 (amended): for every store state, a request payload that fails to
decode makes the corresponding handler abort the entire server process
(`abort()` at lines 400 and 424) instead of closing only that connection. -/
theorem malformedRequestAlwaysAborts (s : BinPHT) :
    handleGet s none = HandlerResult.processAbort ∧
    handlePut s none = HandlerResult.processAbort :=
  ⟨rfl, rfl⟩

/-- C10: at the `get` interface a key whose most recently stored value is the
empty string is indistinguishable from a key never written: in both cases
`BinaryPersistentHashTable::get` returns the empty string, and in both cases
`handle_get` leaves the response value field unset. -/
theorem emptyValueLooksAbsent (s : BinPHT) (K K2 : String) (rid rid2 : Nat)
    (hpos : s.pos = s.file.length) (habsent : s.table.get K2 = none) :
    ((s.put K []).get K).1 = [] ∧
    (s.get K2).1 = [] ∧
    getRespValue (handleGet (s.put K []) (some ⟨rid, K⟩)) = some none ∧
    getRespValue (handleGet s (some ⟨rid2, K2⟩)) = some none := by
  have h1 : ((s.put K []).get K).1 = [] :=
    get_put_roundTrip s K [] hpos (by norm_num)
  have h2 : (s.get K2).1 = [] := by simp [BinPHT.get, habsent]
  refine ⟨h1, h2, ?_, ?_⟩
  · simp [handleGet, getRespValue, h1]
  · simp [handleGet, getRespValue, h2]

/-- Witness for C10: fresh store; `"e"` is stored with the empty value,
`"z"` was never written. -/
theorem emptyValueLooksAbsent_witness :
    (BinPHT.fopenAppend [] PHT.init).pos =
      (BinPHT.fopenAppend [] PHT.init).file.length ∧
    (BinPHT.fopenAppend [] PHT.init).table.get "z" = none ∧
    ((((BinPHT.fopenAppend [] PHT.init).put "e" []).get "e").1 = [] ∧
      ((BinPHT.fopenAppend [] PHT.init).get "z").1 = [] ∧
      getRespValue (handleGet ((BinPHT.fopenAppend [] PHT.init).put "e" [])
        (some ⟨1, "e"⟩)) = some none ∧
      getRespValue (handleGet (BinPHT.fopenAppend [] PHT.init)
        (some ⟨2, "z"⟩)) = some none) :=
  ⟨rfl, rfl, emptyValueLooksAbsent (BinPHT.fopenAppend [] PHT.init) "e" "z" 1 2 rfl rfl⟩

end LocalStorage
